import Mathlib

/-!
Verification of the adaptive difficulty selection core of Viva_Trainer
(EchoLearn).  The question-selection function is embedded from
`question_manager.py` (`QuestionManager.find_question_by_difficulty`);
the adaptive trajectory engine (`AdaptiveLearningEngine` of
`adaptive_learning.py`, absent from the sources, only its callers in
`echolearn.py` are present) is modelled from the specification.
-/

/-- A question record as read by the selection code.  The Python code
only ever reads the optional `difficulty` key of the question dict
(`q.get('difficulty')`, `q.get('difficulty', 10)`), so the embedding
keeps exactly that field; a `none` difficulty is a dict without the key. -/
structure Question where
  difficulty : Option Int
deriving DecidableEq, Repr

/-- Distance used by the closest-match pass of
`find_question_by_difficulty`: `abs(q.get('difficulty', 10) - target)`. -/
def distQ (t : Int) (q : Question) : Nat :=
  (q.difficulty.getD 10 - t).natAbs

/-- First pass of `find_question_by_difficulty`
(question_manager.py:324-326): scan with a running index, return the
first index not excluded whose `difficulty` key exists and equals the
target. -/
def findExactAux (t : Int) (ex : List Nat) : List Question → Nat → Option Nat
  | [], _ => none
  | q :: rest, i =>
    if i ∉ ex ∧ q.difficulty = some t then some i
    else findExactAux t ex rest (i + 1)

/-- Second pass of `find_question_by_difficulty`
(question_manager.py:329-338): running `(best_match, best_diff)`
accumulator, replaced only on a strictly smaller distance, missing
`difficulty` keys defaulting to 10. -/
def closestAux (t : Int) (ex : List Nat) : List Question → Nat → Option (Nat × Nat) → Option (Nat × Nat)
  | [], _, best => best
  | q :: rest, i, best =>
    if i ∈ ex then closestAux t ex rest (i + 1) best
    else
      match best with
      | none => closestAux t ex rest (i + 1) (some (i, distQ t q))
      | some (bi, bd) =>
        if distQ t q < bd then closestAux t ex rest (i + 1) (some (i, distQ t q))
        else closestAux t ex rest (i + 1) (some (bi, bd))

/-- `QuestionManager.find_question_by_difficulty`
(question_manager.py:308-340).  A `none` third argument is the Python
default `exclude_indices=None`, replaced by the empty list at entry. -/
def find_question_by_difficulty (questions : List Question) (target_difficulty : Int)
    (exclude_indices : Option (List Nat)) : Option Nat :=
  let ex := exclude_indices.getD []
  match findExactAux target_difficulty ex questions 0 with
  | some i => some i
  | none => (closestAux target_difficulty ex questions 0 none).map Prod.fst

/-- Reference form of the closest-match pass, structural recursion from
the head, used to reason about `closestAux`. -/
def bestFrom (t : Int) (ex : List Nat) : List Question → Nat → Option (Nat × Nat)
  | [], _ => none
  | q :: rest, i =>
    if i ∈ ex then bestFrom t ex rest (i + 1)
    else
      match bestFrom t ex rest (i + 1) with
      | none => some (i, distQ t q)
      | some (bj, bd) => if distQ t q ≤ bd then some (i, distQ t q) else some (bj, bd)

/-- Merge an accumulator entry with the best of the remaining list:
the later entry wins only on a strictly smaller distance. -/
def mergeBest (b : Nat × Nat) : Option (Nat × Nat) → Nat × Nat
  | none => b
  | some (j, d) => if d < b.2 then (j, d) else b

/-- Effective difficulty the closest-match pass uses for index `k`:
the stored difficulty, defaulting to 10 for a missing key (and for an
out-of-range index, which no theorem relies on). -/
def diffD (qs : List Question) (k : Nat) : Int :=
  ((qs.get? k).bind Question.difficulty).getD 10

/-- Distance of index `k` from target `t` in the closest-match pass. -/
def distAt (qs : List Question) (t : Int) (k : Nat) : Nat :=
  (diffD qs k - t).natAbs

/-- Index `k` holds a question whose `difficulty` key exists and equals `t`. -/
def exactAt (qs : List Question) (t : Int) (k : Nat) : Prop :=
  (qs.get? k).bind Question.difficulty = some t

instance (qs : List Question) (t : Int) (k : Nat) : Decidable (exactAt qs t k) := by
  unfold exactAt; infer_instance

/-- Index `k` holds a question record without a `difficulty` key. -/
def noTag (qs : List Question) (k : Nat) : Prop :=
  k < qs.length ∧ (qs.get? k).bind Question.difficulty = none

instance (qs : List Question) (k : Nat) : Decidable (noTag qs k) := by
  unfold noTag; infer_instance

/-- Modelled from the spec: the Adaptive Trajectory State of
`AdaptiveLearningEngine` (module `adaptive_learning.py`, absent from the
sources).  Fields per spec section 3; `difficulty_path` starts with the
seed target difficulty so that its length is always the number of
updates plus one (spec sections 3 and 8, "seed value included"). -/
structure AdaptiveState where
  current_difficulty : Int
  last_answer_correct : Option Bool
  consecutive_wrong_same_level : Nat
  difficulty_path : List Int
deriving DecidableEq, Repr

/-- Modelled from the spec: clamp of the target difficulty to [1,20]
after every adjustment (spec sections 3 and 4.1). -/
def clampD (d : Int) : Int := max 1 (min 20 d)

/-- Modelled from the spec: defensive clamp of an input score to [0,10]
(spec sections 4.1 and 7). -/
def clampScore (x : Int) : Int := max 0 (min 10 x)

/-- Modelled from the spec: upward step for a correct answer,
proportional to how far above the threshold the score was (spec section
4.1; exact constants are left open by spec section 9, this is the
simplest monotone choice: scores 6..10 step up by 1..5). -/
def upStep (sc : Int) : Int := sc - 5

/-- Modelled from the spec: downward step for an incorrect answer as a
function of the consecutive-wrong counter after incrementing; three or
more consecutive wrong answers force the larger plateau-escape step
(spec section 4.1; constants per spec section 9's instruction to pick
clearly specified steps). -/
def downStep (cw : Nat) : Int := if 3 ≤ cw then 4 else 2

/-- Modelled from the spec: session-initial trajectory state — target
difficulty 10, no evaluation yet, counter 0, path seeded with the
initial target (spec section 3). -/
def initialState : AdaptiveState :=
  { current_difficulty := 10
    last_answer_correct := none
    consecutive_wrong_same_level := 0
    difficulty_path := [10] }

/-- Modelled from the spec: `AdaptiveLearningEngine.update_state(score,
question_index, question_difficulty)` (spec section 4.1).  The score is
clamped to [0,10]; correct means clamped score at least 6; correct
answers step the difficulty up and reset the counter, incorrect ones
step it down (plateau-escape step from the third consecutive failure)
and increment the counter; the result is clamped to [1,20] and appended
to the path.  `question_index` and `question_difficulty` are
bookkeeping-only inputs per the spec and do not affect the state. -/
def update_state (s : AdaptiveState) (score _question_index _question_difficulty : Int) :
    AdaptiveState :=
  let sc := clampScore score
  if 6 ≤ sc then
    let nd := clampD (s.current_difficulty + upStep sc)
    { current_difficulty := nd
      last_answer_correct := some true
      consecutive_wrong_same_level := 0
      difficulty_path := s.difficulty_path ++ [nd] }
  else
    let ncw := s.consecutive_wrong_same_level + 1
    let nd := clampD (s.current_difficulty - downStep ncw)
    { current_difficulty := nd
      last_answer_correct := some false
      consecutive_wrong_same_level := ncw
      difficulty_path := s.difficulty_path ++ [nd] }

/-- Modelled from the spec: `AdaptiveLearningEngine.reset_state()`
restores all trajectory fields to their session-initial values (spec
section 4.1); it is a pure function of the state. -/
def reset_state (_s : AdaptiveState) : AdaptiveState := initialState

/-- Run a sequence of `update_state` calls, each input being
(score, question_index, question_difficulty). -/
def runUpdates (s : AdaptiveState) (inputs : List (Int × Int × Int)) : AdaptiveState :=
  inputs.foldl (fun st p => update_state st p.1 p.2.1 p.2.2) s

lemma clampD_bounds (d : Int) : 1 ≤ clampD d ∧ clampD d ≤ 20 := by
  unfold clampD; omega

lemma update_state_correct_eq (s : AdaptiveState) (w qi qd : Int) (hw : 6 ≤ clampScore w) :
    update_state s w qi qd =
      { current_difficulty := clampD (s.current_difficulty + upStep (clampScore w))
        last_answer_correct := some true
        consecutive_wrong_same_level := 0
        difficulty_path := s.difficulty_path ++
          [clampD (s.current_difficulty + upStep (clampScore w))] } := by
  unfold update_state
  dsimp only
  rw [if_pos hw]

lemma update_state_wrong_eq (s : AdaptiveState) (w qi qd : Int) (hw : clampScore w < 6) :
    update_state s w qi qd =
      { current_difficulty := clampD (s.current_difficulty - downStep (s.consecutive_wrong_same_level + 1))
        last_answer_correct := some false
        consecutive_wrong_same_level := s.consecutive_wrong_same_level + 1
        difficulty_path := s.difficulty_path ++
          [clampD (s.current_difficulty - downStep (s.consecutive_wrong_same_level + 1))] } := by
  unfold update_state
  dsimp only
  rw [if_neg (by omega)]

lemma update_state_difficulty_bounds (s : AdaptiveState) (sc qi qd : Int) :
    1 ≤ (update_state s sc qi qd).current_difficulty ∧
      (update_state s sc qi qd).current_difficulty ≤ 20 := by
  rcases lt_or_le (clampScore sc) 6 with hw | hc
  · rw [update_state_wrong_eq s sc qi qd hw]
    exact clampD_bounds _
  · rw [update_state_correct_eq s sc qi qd hc]
    exact clampD_bounds _

lemma runUpdates_bounds (inputs : List (Int × Int × Int)) (s : AdaptiveState)
    (h : 1 ≤ s.current_difficulty ∧ s.current_difficulty ≤ 20) :
    1 ≤ (runUpdates s inputs).current_difficulty ∧
      (runUpdates s inputs).current_difficulty ≤ 20 := by
  induction inputs generalizing s with
  | nil => exact h
  | cons p rest ih =>
    exact ih (update_state s p.1 p.2.1 p.2.2) (update_state_difficulty_bounds s p.1 p.2.1 p.2.2)

/-- C3: starting from the session-initial state (current difficulty 10),
after every sequence of `update_state` calls — any scores whatever,
including repeated 0s and repeated 10s — the current difficulty stays
within [1,20]. -/
theorem adaptive_difficulty_clamped (inputs : List (Int × Int × Int)) :
    1 ≤ (runUpdates initialState inputs).current_difficulty ∧
      (runUpdates initialState inputs).current_difficulty ≤ 20 :=
  runUpdates_bounds inputs initialState (by decide)

/-- C5: from any one starting state, an update with score 9 yields a
target difficulty at least as large as an update with score 2 (the
recommendation's target difficulty is the new current difficulty). -/
theorem update_monotone_response (s : AdaptiveState) (qi qd qi2 qd2 : Int) :
    (update_state s 2 qi2 qd2).current_difficulty ≤
      (update_state s 9 qi qd).current_difficulty := by
  rw [update_state_correct_eq s 9 qi qd (by decide),
    update_state_wrong_eq s 2 qi2 qd2 (by decide)]
  have h9 : clampScore 9 = 9 := by decide
  rw [h9]
  dsimp only
  unfold clampD upStep downStep
  split <;> omega

lemma update_state_path_length (s : AdaptiveState) (sc qi qd : Int) :
    (update_state s sc qi qd).difficulty_path.length = s.difficulty_path.length + 1 := by
  rcases lt_or_le (clampScore sc) 6 with hw | hc
  · rw [update_state_wrong_eq s sc qi qd hw]; simp
  · rw [update_state_correct_eq s sc qi qd hc]; simp

lemma runUpdates_path_length (inputs : List (Int × Int × Int)) (s : AdaptiveState) :
    (runUpdates s inputs).difficulty_path.length =
      s.difficulty_path.length + inputs.length := by
  induction inputs generalizing s with
  | nil => rfl
  | cons p rest ih =>
    have h1 := ih (update_state s p.1 p.2.1 p.2.2)
    simp only [runUpdates, List.foldl_cons] at h1 ⊢
    rw [h1, update_state_path_length]
    simp only [List.length_cons]
    omega

/-- C6: at every point in a session (after any number of `update_state`
calls from the session-initial state) the length of the difficulty path
equals the number of calls plus one, the seed target difficulty being
part of the path from the start. -/
theorem difficulty_path_audit (inputs : List (Int × Int × Int)) :
    (runUpdates initialState inputs).difficulty_path.length = inputs.length + 1 ∧
      initialState.difficulty_path = [10] := by
  refine ⟨?_, rfl⟩
  rw [runUpdates_path_length]
  simp [initialState]
  omega

/-- C8: `reset_state` is idempotent — two calls in a row give exactly
the state one call gives — and it restores every trajectory field to its
session-initial value (difficulty 10, counter 0, seed-only path), being
a pure function with no other effect. -/
theorem reset_state_idempotent (s : AdaptiveState) :
    reset_state (reset_state s) = reset_state s ∧
      reset_state s = initialState ∧
      (reset_state s).current_difficulty = 10 ∧
      (reset_state s).consecutive_wrong_same_level = 0 ∧
      (reset_state s).difficulty_path = initialState.difficulty_path :=
  ⟨rfl, rfl, rfl, rfl, rfl⟩

/-- A state reachable from the session-initial state (four incorrect
answers followed by one barely correct one) that sits near the clamp
floor with the consecutive-wrong counter at zero. -/
def floorState : AdaptiveState :=
  runUpdates initialState [(0, 0, 10), (0, 1, 8), (0, 2, 6), (0, 3, 2), (6, 4, 1)]

/-- C4 counterexample: the plateau-escape claim as stated is false at
the clamp floor.  From the reachable state `floorState` (counter 0,
difficulty 2), three consecutive incorrect answers leave the difficulty
after the third failure equal to the value held after the first failure
(both are clamped to 1), so the universally read claim fails. -/
theorem plateau_escape_claim_false :
    ¬ (∀ (s0 : AdaptiveState) (w1 w2 w3 qi qd : Int),
        s0.consecutive_wrong_same_level = 0 →
        clampScore w1 < 6 → clampScore w2 < 6 → clampScore w3 < 6 →
        downStep ((update_state (update_state s0 w1 qi qd) w2 qi qd).consecutive_wrong_same_level + 1) >
            downStep (s0.consecutive_wrong_same_level + 1) ∧
          (update_state (update_state (update_state s0 w1 qi qd) w2 qi qd) w3 qi qd).current_difficulty ≠
            (update_state s0 w1 qi qd).current_difficulty) := by
  intro h
  have hc := h floorState 0 0 0 0 0 (by decide) (by decide) (by decide) (by decide)
  exact hc.2 (by decide)

/-- C4 amended: three consecutive incorrect answers starting from a
counter-zero state trigger, on the third failure, a downward step
strictly larger than a single incorrect answer's step (unconditionally);
and provided the difficulty held after the first failure is above the
clamp floor 1, the difficulty after the third failure differs from the
value held after the first failure. -/
theorem plateau_escape (s0 : AdaptiveState) (w1 w2 w3 qi1 qd1 qi2 qd2 qi3 qd3 : Int)
    (h0 : s0.consecutive_wrong_same_level = 0)
    (hw1 : clampScore w1 < 6) (hw2 : clampScore w2 < 6) (hw3 : clampScore w3 < 6) :
    downStep ((update_state (update_state s0 w1 qi1 qd1) w2 qi2 qd2).consecutive_wrong_same_level + 1) >
        downStep (s0.consecutive_wrong_same_level + 1) ∧
      (1 < (update_state s0 w1 qi1 qd1).current_difficulty →
        (update_state (update_state (update_state s0 w1 qi1 qd1) w2 qi2 qd2) w3 qi3 qd3).current_difficulty ≠
          (update_state s0 w1 qi1 qd1).current_difficulty) := by
  rw [update_state_wrong_eq s0 w1 qi1 qd1 hw1]
  rw [update_state_wrong_eq _ w2 qi2 qd2 hw2]
  rw [update_state_wrong_eq _ w3 qi3 qd3 hw3]
  dsimp only
  rw [h0]
  unfold clampD downStep
  constructor
  · norm_num
  · intro hfloor
    split at hfloor <;> split <;> omega

/-- Flag recorded by the engine per evaluation; exposed for the
threshold theorem. -/
def correct_flag (score : Int) : Bool := decide (6 ≤ score)

/-- Success-feedback branch condition of `handle_audio_answer`
(echolearn.py:1186, `if score >= 6:`). -/
def success_feedback (score : Int) : Bool := decide (6 ≤ score)

/-- Correct-questions increment logged by `handle_audio_answer`
(echolearn.py:1256, `questions_correct=1 if score >= 6 else 0`). -/
def questions_correct_increment (score : Int) : Int :=
  if 6 ≤ score then 1 else 0

/-- Success argument passed to the confidence update for spoken answers
(echolearn.py:1180, `score >= 6, 'speech'`). -/
def confidence_success_speech (score : Int) : Bool := decide (6 ≤ score)

/-- Success argument passed to the confidence update for written answers
in selective-mutism mode (echolearn.py:1317, `score >= 6, 'text'`). -/
def confidence_success_text (score : Int) : Bool := decide (6 ≤ score)

lemma clampScore_of_range (x : Int) (h0 : 0 ≤ x) (h10 : x ≤ 10) : clampScore x = x := by
  unfold clampScore; omega

/-- C7: an answer counts as correct exactly when its score is at least
6, and every correctness branch — the success feedback, the
correct-questions count, both confidence-update arguments, and the
engine's recorded `last_answer_correct` (modelled from the spec) — uses
that same threshold. -/
theorem correctness_threshold (score : Int) (h0 : 0 ≤ score) (h10 : score ≤ 10) :
    (success_feedback score = true ↔ 6 ≤ score) ∧
      (questions_correct_increment score = 1 ↔ 6 ≤ score) ∧
      (confidence_success_speech score = true ↔ 6 ≤ score) ∧
      (confidence_success_text score = true ↔ 6 ≤ score) ∧
      ∀ (s : AdaptiveState) (qi qd : Int),
        (update_state s score qi qd).last_answer_correct = some (correct_flag score) := by
  refine ⟨by simp [success_feedback], ?_, by simp [confidence_success_speech],
    by simp [confidence_success_text], ?_⟩
  · unfold questions_correct_increment
    split <;> simp_all
  · intro s qi qd
    have hs := clampScore_of_range score h0 h10
    rcases lt_or_le (clampScore score) 6 with hw | hc
    · rw [update_state_wrong_eq s score qi qd hw]
      unfold correct_flag
      rw [hs] at hw
      simp [hw, not_le.mpr hw]
    · rw [update_state_correct_eq s score qi qd hc]
      unfold correct_flag
      rw [hs] at hc
      simp [hc]

/-- C7 witness: all correctness branches agree at the concrete in-range
score 7. -/
theorem correctness_threshold_witness :
    (0 : Int) ≤ 7 ∧ (7 : Int) ≤ 10 ∧
      ((success_feedback 7 = true ↔ (6 : Int) ≤ 7) ∧
        (questions_correct_increment 7 = 1 ↔ (6 : Int) ≤ 7) ∧
        (confidence_success_speech 7 = true ↔ (6 : Int) ≤ 7) ∧
        (confidence_success_text 7 = true ↔ (6 : Int) ≤ 7) ∧
        ∀ (s : AdaptiveState) (qi qd : Int),
          (update_state s 7 qi qd).last_answer_correct = some (correct_flag 7)) :=
  ⟨by decide, by decide, correctness_threshold 7 (by decide) (by decide)⟩

/-- C4 witness for the amended plateau claim: from the session-initial
state three zero-score answers satisfy the hypotheses (counter starts at
0, difficulty after the first failure is 8 > 1) and the amended
conclusion follows. -/
theorem plateau_escape_witness :
    initialState.consecutive_wrong_same_level = 0 ∧
      clampScore 0 < 6 ∧
      (downStep ((update_state (update_state initialState 0 0 10) 0 1 8).consecutive_wrong_same_level + 1) >
          downStep (initialState.consecutive_wrong_same_level + 1) ∧
        (1 < (update_state initialState 0 0 10).current_difficulty →
          (update_state (update_state (update_state initialState 0 0 10) 0 1 8) 0 2 6).current_difficulty ≠
            (update_state initialState 0 0 10).current_difficulty)) :=
  ⟨by decide, by decide,
    plateau_escape initialState 0 0 0 0 10 1 8 2 6 (by decide) (by decide) (by decide)
      (by decide)⟩

lemma exactAt_get (qs : List Question) (t : Int) (k : Nat) (hk : k < qs.length) :
    exactAt qs t k ↔ (qs.get ⟨k, hk⟩).difficulty = some t := by
  unfold exactAt
  rw [List.get?_eq_get hk]
  simp

lemma distAt_get (qs : List Question) (t : Int) (k : Nat) (hk : k < qs.length) :
    distAt qs t k = distQ t (qs.get ⟨k, hk⟩) := by
  unfold distAt diffD distQ
  rw [List.get?_eq_get hk]
  simp

lemma findExactAux_eq_none_iff (t : Int) (ex : List Nat) (l : List Question) (s : Nat) :
    findExactAux t ex l s = none ↔
      ∀ k (hk : k < l.length), s + k ∈ ex ∨ (l.get ⟨k, hk⟩).difficulty ≠ some t := by
  induction l generalizing s with
  | nil => simp [findExactAux]
  | cons q rest ih =>
    by_cases hc : s ∉ ex ∧ q.difficulty = some t
    · rw [findExactAux, if_pos hc]
      constructor
      · intro h; cases h
      · intro h
        exfalso
        have h0 := h 0 (by simp)
        simp only [Nat.add_zero, List.get] at h0
        tauto
    · rw [findExactAux, if_neg hc, ih (s + 1)]
      constructor
      · intro h k hk
        match k with
        | 0 =>
          rw [Nat.add_zero]
          have := not_and_or.mp hc
          simpa [List.get] using this
        | m + 1 =>
          have hm : m < rest.length := by simpa using hk
          have := h m hm
          have hsk : s + (m + 1) = s + 1 + m := by omega
          rw [hsk]
          simpa [List.get] using this
      · intro h k hk
        have hk1 : k + 1 < (q :: rest).length := by simpa using Nat.succ_lt_succ hk
        have := h (k + 1) hk1
        have hsk : s + (k + 1) = s + 1 + k := by omega
        rw [hsk] at this
        simpa [List.get] using this

lemma findExactAux_eq_some (t : Int) (ex : List Nat) (l : List Question) (s j : Nat)
    (h : findExactAux t ex l s = some j) :
    ∃ k, ∃ hk : k < l.length, j = s + k ∧ j ∉ ex ∧ (l.get ⟨k, hk⟩).difficulty = some t ∧
      ∀ m (hm : m < l.length), s + m < j →
        s + m ∈ ex ∨ (l.get ⟨m, hm⟩).difficulty ≠ some t := by
  induction l generalizing s with
  | nil => cases h
  | cons q rest ih =>
    by_cases hc : s ∉ ex ∧ q.difficulty = some t
    · rw [findExactAux, if_pos hc] at h
      have hj : j = s := by cases h; rfl
      subst hj
      refine ⟨0, by simp, by omega, hc.1, by simpa [List.get] using hc.2, ?_⟩
      intro m hm hlt
      omega
    · rw [findExactAux, if_neg hc] at h
      obtain ⟨k, hk, hjk, hnex, hget, hfirst⟩ := ih (s + 1) h
      refine ⟨k + 1, by simpa using Nat.succ_lt_succ hk, by omega, hnex,
        by simpa [List.get] using hget, ?_⟩
      intro m hm hlt
      match m with
      | 0 =>
        rw [Nat.add_zero]
        have := not_and_or.mp hc
        simpa [List.get] using this
      | n + 1 =>
        have hn : n < rest.length := by simpa using hm
        have := hfirst n hn (by omega)
        have hsk : s + (n + 1) = s + 1 + n := by omega
        rw [hsk]
        simpa [List.get] using this

lemma closestAux_acc (t : Int) (ex : List Nat) (l : List Question) :
    ∀ (s : Nat) (b : Nat × Nat),
      closestAux t ex l s (some b) = some (mergeBest b (bestFrom t ex l s)) := by
  induction l with
  | nil => intro s b; rfl
  | cons q rest ih =>
    intro s b
    obtain ⟨bi, bd⟩ := b
    by_cases hs : s ∈ ex
    · rw [closestAux, if_pos hs, bestFrom, if_pos hs, ih]
    · rw [closestAux, if_neg hs, bestFrom, if_neg hs]
      simp only [ih]
      cases hbf : bestFrom t ex rest (s + 1) with
      | none => simp only [mergeBest]; split_ifs <;> rfl
      | some p =>
        obtain ⟨bj, bd2⟩ := p
        simp only [mergeBest]
        split_ifs <;>
          first
            | rfl
            | omega
            | (simp only [mergeBest]; split_ifs <;> first | rfl | omega)

lemma closestAux_none_eq (t : Int) (ex : List Nat) (l : List Question) :
    ∀ s : Nat, closestAux t ex l s none = bestFrom t ex l s := by
  induction l with
  | nil => intro s; rfl
  | cons q rest ih =>
    intro s
    by_cases hs : s ∈ ex
    · rw [closestAux, if_pos hs, bestFrom, if_pos hs, ih]
    · rw [closestAux, if_neg hs, bestFrom, if_neg hs]
      rw [closestAux_acc]
      cases hbf : bestFrom t ex rest (s + 1) with
      | none => rfl
      | some p =>
        obtain ⟨bj, bd2⟩ := p
        simp only [mergeBest]
        split_ifs <;> first | rfl | omega

lemma bestFrom_eq_none_iff (t : Int) (ex : List Nat) (l : List Question) :
    ∀ s : Nat, bestFrom t ex l s = none ↔ ∀ k, k < l.length → s + k ∈ ex := by
  induction l with
  | nil => intro s; simp [bestFrom]
  | cons q rest ih =>
    intro s
    by_cases hs : s ∈ ex
    · rw [bestFrom, if_pos hs, ih (s + 1)]
      constructor
      · intro h k hk
        cases k with
        | zero => simpa using hs
        | succ n =>
          have hn : n < rest.length := by simpa using hk
          have := h n hn
          have hsk : s + (n + 1) = s + 1 + n := by omega
          rw [hsk]
          exact this
      · intro h k hk
        have := h (k + 1) (by simpa using Nat.succ_lt_succ hk)
        have hsk : s + (k + 1) = s + 1 + k := by omega
        rw [hsk] at this
        exact this
    · rw [bestFrom, if_neg hs]
      constructor
      · intro h
        exfalso
        cases hbf : bestFrom t ex rest (s + 1) with
        | none => rw [hbf] at h; cases h
        | some p =>
          rw [hbf] at h
          obtain ⟨bj, bd2⟩ := p
          dsimp only at h
          split_ifs at h
      · intro h
        exfalso
        exact hs (by simpa using h 0 (by simp))

lemma bestFrom_eq_some (t : Int) (ex : List Nat) (l : List Question) :
    ∀ (s j d : Nat), bestFrom t ex l s = some (j, d) →
      ∃ k, ∃ hk : k < l.length, j = s + k ∧ j ∉ ex ∧ d = distQ t (l.get ⟨k, hk⟩) ∧
        (∀ m (hm : m < l.length), s + m ∉ ex → d ≤ distQ t (l.get ⟨m, hm⟩)) ∧
        (∀ m (hm : m < l.length), s + m < j → s + m ∉ ex → d < distQ t (l.get ⟨m, hm⟩)) := by
  induction l with
  | nil => intro s j d h; cases h
  | cons q rest ih =>
    intro s j d h
    by_cases hs : s ∈ ex
    · rw [bestFrom, if_pos hs] at h
      obtain ⟨k, hk, hj, hnex, hd, hmin, hstrict⟩ := ih (s + 1) j d h
      refine ⟨k + 1, by simpa using Nat.succ_lt_succ hk, by omega, hnex,
        by simpa [List.get] using hd, ?_, ?_⟩
      · intro m hm hmex
        cases m with
        | zero => exact absurd hs (by simpa using hmex)
        | succ n =>
          have hn : n < rest.length := by simpa using hm
          have hsk : s + (n + 1) = s + 1 + n := by omega
          rw [hsk] at hmex
          simpa [List.get] using hmin n hn hmex
      · intro m hm hlt hmex
        cases m with
        | zero => exact absurd hs (by simpa using hmex)
        | succ n =>
          have hn : n < rest.length := by simpa using hm
          have hsk : s + (n + 1) = s + 1 + n := by omega
          rw [hsk] at hmex hlt
          simpa [List.get] using hstrict n hn hlt hmex
    · rw [bestFrom, if_neg hs] at h
      cases hbf : bestFrom t ex rest (s + 1) with
      | none =>
        rw [hbf] at h
        simp only [Option.some.injEq, Prod.mk.injEq] at h
        obtain ⟨hj, hd⟩ := h
        subst hj
        subst hd
        refine ⟨0, by simp, by omega, hs, by simp [List.get], ?_, ?_⟩
        · intro m hm hmex
          cases m with
          | zero => simp [List.get]
          | succ n =>
            exfalso
            have hn : n < rest.length := by simpa using hm
            have hall := (bestFrom_eq_none_iff t ex rest (s + 1)).mp hbf n hn
            have hsk : s + (n + 1) = s + 1 + n := by omega
            rw [hsk] at hmex
            exact hmex hall
        · intro m hm hlt
          omega
      | some p =>
        obtain ⟨bj, bd2⟩ := p
        rw [hbf] at h
        dsimp only at h
        obtain ⟨k, hk, hj, hnex, hd, hmin, hstrict⟩ := ih (s + 1) bj bd2 hbf
        by_cases hle : distQ t q ≤ bd2
        · rw [if_pos hle] at h
          simp only [Option.some.injEq, Prod.mk.injEq] at h
          obtain ⟨hjs, hds⟩ := h
          subst hjs
          subst hds
          refine ⟨0, by simp, by omega, hs, by simp [List.get], ?_, ?_⟩
          · intro m hm hmex
            cases m with
            | zero => simp [List.get]
            | succ n =>
              have hn : n < rest.length := by simpa using hm
              have hsk : s + (n + 1) = s + 1 + n := by omega
              rw [hsk] at hmex
              have h2 := hmin n hn hmex
              simp only [List.get]
              omega
          · intro m hm hlt
            omega
        · rw [if_neg hle] at h
          simp only [Option.some.injEq, Prod.mk.injEq] at h
          obtain ⟨hjs, hds⟩ := h
          subst hjs
          subst hds
          refine ⟨k + 1, by simpa using Nat.succ_lt_succ hk, by omega, hnex,
            by simpa [List.get] using hd, ?_, ?_⟩
          · intro m hm hmex
            cases m with
            | zero =>
              simp only [List.get]
              omega
            | succ n =>
              have hn : n < rest.length := by simpa using hm
              have hsk : s + (n + 1) = s + 1 + n := by omega
              rw [hsk] at hmex
              simpa [List.get] using hmin n hn hmex
          · intro m hm hlt hmex
            cases m with
            | zero =>
              simp only [List.get]
              omega
            | succ n =>
              have hn : n < rest.length := by simpa using hm
              have hsk : s + (n + 1) = s + 1 + n := by omega
              rw [hsk] at hmex hlt
              simpa [List.get] using hstrict n hn hlt hmex

lemma find_unfold (qs : List Question) (t : Int) (ex : List Nat) :
    find_question_by_difficulty qs t (some ex) =
      match findExactAux t ex qs 0 with
      | some i => some i
      | none => (bestFrom t ex qs 0).map Prod.fst := by
  unfold find_question_by_difficulty
  simp only [Option.getD_some]
  rw [closestAux_none_eq]

/-- C1: on a pool whose questions all carry a difficulty, whenever some
index is unused the selection returns an index, and that index is the
lowest unused exact match of the target difficulty when one exists, and
otherwise an unused index of minimal absolute distance to the target,
ties broken by the lowest index. -/
theorem find_question_selection (qs : List Question) (t : Int) (ex : List Nat)
    (_hall : ∀ q ∈ qs, q.difficulty.isSome)
    (hun : ∃ k, k < qs.length ∧ k ∉ ex) :
    ∃ j, find_question_by_difficulty qs t (some ex) = some j ∧ j < qs.length ∧ j ∉ ex ∧
      ((∃ k, k < qs.length ∧ k ∉ ex ∧ exactAt qs t k) →
        exactAt qs t j ∧ ∀ m, m < j → m ∉ ex → ¬ exactAt qs t m) ∧
      ((¬ ∃ k, k < qs.length ∧ k ∉ ex ∧ exactAt qs t k) →
        (∀ m, m < qs.length → m ∉ ex → distAt qs t j ≤ distAt qs t m) ∧
        (∀ m, m < j → m ∉ ex → distAt qs t j < distAt qs t m)) := by
  rw [find_unfold]
  cases hfe : findExactAux t ex qs 0 with
  | some i =>
    obtain ⟨k, hk, hik, hnex, hget, hfirst⟩ := findExactAux_eq_some t ex qs 0 i hfe
    rw [Nat.zero_add] at hik
    subst k
    refine ⟨i, rfl, hk, hnex, ?_, ?_⟩
    · intro _
      refine ⟨(exactAt_get qs t i hk).mpr hget, ?_⟩
      intro m hm hmex hmexact
      have hmlen : m < qs.length := hm.trans hk
      have := hfirst m hmlen (by omega)
      rcases this with hin | hne
      · exact hmex (by simpa using hin)
      · exact hne ((exactAt_get qs t m hmlen).mp hmexact)
    · intro hno
      exact absurd ⟨i, hk, hnex, (exactAt_get qs t i hk).mpr hget⟩ hno
  | none =>
    cases hbf : bestFrom t ex qs 0 with
    | none =>
      exfalso
      obtain ⟨k, hklen, hkex⟩ := hun
      have := (bestFrom_eq_none_iff t ex qs 0).mp hbf k hklen
      exact hkex (by simpa using this)
    | some p =>
      obtain ⟨j, d⟩ := p
      obtain ⟨k, hk, hjk, hnex, hd, hmin, hstrict⟩ := bestFrom_eq_some t ex qs 0 j d hbf
      rw [Nat.zero_add] at hjk
      subst k
      refine ⟨j, rfl, hk, hnex, ?_, ?_⟩
      · intro hex
        exfalso
        obtain ⟨k2, hk2len, hk2ex, hk2exact⟩ := hex
        have := (findExactAux_eq_none_iff t ex qs 0).mp hfe k2 hk2len
        rcases this with hin | hne
        · exact hk2ex (by simpa using hin)
        · exact hne ((exactAt_get qs t k2 hk2len).mp hk2exact)
      · intro _
        have hdj : distAt qs t j = d := by
          rw [distAt_get qs t j hk]
          exact hd.symm
        constructor
        · intro m hmlen hmex
          rw [hdj, distAt_get qs t m hmlen]
          exact hmin m hmlen (by simpa using hmex)
        · intro m hm hmex
          have hmlen : m < qs.length := hm.trans hk
          rw [hdj, distAt_get qs t m hmlen]
          exact hstrict m hmlen (by omega) (by simpa using hmex)

/-- The spec's example pool: difficulties 5, 10 and 15. -/
def poolA : List Question := [Question.mk (some 5), Question.mk (some 10), Question.mk (some 15)]

/-- C1 witness: for the pool of difficulties 5, 10, 15 at target 9 the
hypotheses hold with nothing used, the characterization follows from the
theorem, and concretely the selection returns index 1 (difficulty 10,
nearest), and index 0 once index 1 is used. -/
theorem find_question_selection_witness :
    (∀ q ∈ poolA, q.difficulty.isSome) ∧
      (∃ k, k < poolA.length ∧ k ∉ ([] : List Nat)) ∧
      (∃ j, find_question_by_difficulty poolA 9 (some []) = some j ∧
        j < poolA.length ∧ j ∉ ([] : List Nat) ∧
        ((∃ k, k < poolA.length ∧ k ∉ ([] : List Nat) ∧ exactAt poolA 9 k) →
          exactAt poolA 9 j ∧ ∀ m, m < j → m ∉ ([] : List Nat) → ¬ exactAt poolA 9 m) ∧
        ((¬ ∃ k, k < poolA.length ∧ k ∉ ([] : List Nat) ∧ exactAt poolA 9 k) →
          (∀ m, m < poolA.length → m ∉ ([] : List Nat) →
            distAt poolA 9 j ≤ distAt poolA 9 m) ∧
          (∀ m, m < j → m ∉ ([] : List Nat) → distAt poolA 9 j < distAt poolA 9 m))) ∧
      find_question_by_difficulty poolA 9 (some []) = some 1 ∧
      find_question_by_difficulty poolA 9 (some [1]) = some 0 :=
  ⟨by decide, ⟨0, by decide⟩,
    find_question_selection poolA 9 [] (by decide) ⟨0, by decide⟩, by decide, by decide⟩

/-- C2: the selection returns the absent result `none` — a value
distinct from `some 0` and not an exception — exactly when every index
of the pool is in the excluded set. -/
theorem find_question_exhaustion (qs : List Question) (t : Int) (ex : List Nat) :
    find_question_by_difficulty qs t (some ex) = none ↔
      ∀ k, k < qs.length → k ∈ ex := by
  rw [find_unfold]
  cases hfe : findExactAux t ex qs 0 with
  | some i =>
    obtain ⟨k, hk, hik, hnex, _hget, _hfirst⟩ := findExactAux_eq_some t ex qs 0 i hfe
    rw [Nat.zero_add] at hik
    subst k
    constructor
    · intro h; cases h
    · intro h
      exact absurd (h i hk) hnex
  | none =>
    dsimp only
    rw [Option.map_eq_none']
    rw [bestFrom_eq_none_iff]
    constructor
    · intro h k hk
      simpa using h k hk
    · intro h k hk
      simpa using h k hk

/-- C2 witness: a pool of size 3 with all three indices excluded yields
the `none` sentinel. -/
theorem find_question_exhaustion_witness :
    find_question_by_difficulty poolA 9 (some [0, 1, 2]) = none :=
  (find_question_exhaustion poolA 9 [0, 1, 2]).mpr (by decide)

lemma find_default (qs : List Question) (t : Int) (exOpt : Option (List Nat)) :
    find_question_by_difficulty qs t exOpt =
      find_question_by_difficulty qs t (some (exOpt.getD [])) := by
  cases exOpt <;> rfl

/-- C9: whenever the selection returns an index, that index is in range
for the pool and not among the excluded indices — for every pool, every
target and every exclusion argument, the default `none` (treated as the
empty exclusion list) included. -/
theorem find_question_result_safe (qs : List Question) (t : Int)
    (exOpt : Option (List Nat)) (j : Nat)
    (h : find_question_by_difficulty qs t exOpt = some j) :
    j < qs.length ∧ j ∉ exOpt.getD [] := by
  rw [find_default, find_unfold] at h
  cases hfe : findExactAux t (exOpt.getD []) qs 0 with
  | some i =>
    rw [hfe] at h
    dsimp only at h
    have hij : i = j := by cases h; rfl
    subst hij
    obtain ⟨k, hk, hik, hnex, _hget, _hfirst⟩ :=
      findExactAux_eq_some t (exOpt.getD []) qs 0 i hfe
    rw [Nat.zero_add] at hik
    subst k
    exact ⟨hk, hnex⟩
  | none =>
    rw [hfe] at h
    dsimp only at h
    rw [Option.map_eq_some'] at h
    obtain ⟨⟨j2, d⟩, hbf, hj⟩ := h
    dsimp only at hj
    subst hj
    obtain ⟨k, hk, hjk, hnex, _hd, _hmin, _hstrict⟩ :=
      bestFrom_eq_some t (exOpt.getD []) qs 0 j2 d hbf
    rw [Nat.zero_add] at hjk
    subst k
    exact ⟨hk, hnex⟩

/-- C9 witness: on the example pool with the default `None` exclusion
argument the selection returns index 1, which is in range and not
excluded. -/
theorem find_question_result_safe_witness :
    find_question_by_difficulty poolA 9 none = some 1 ∧
      (1 < poolA.length ∧ 1 ∉ (Option.none (α := List Nat)).getD []) :=
  ⟨by decide, find_question_result_safe poolA 9 none 1 (by decide)⟩

lemma noTag_get (qs : List Question) (k : Nat) (hk : k < qs.length) :
    noTag qs k ↔ (qs.get ⟨k, hk⟩).difficulty = none := by
  unfold noTag
  rw [List.get?_eq_get hk]
  simp [hk]

/-- C10: a question without a `difficulty` key is skipped by the
exact-match pass even at target 10 but counts as difficulty 10 in the
closest-match pass.  Hence (first pool) an exactly tagged difficulty-10
question is selected in preference to an earlier untagged unused one,
and (second pool) when no unused exact match exists, the earliest unused
untagged question wins the closest-match pass with distance 0. -/
theorem find_question_missing_difficulty
    (qs1 : List Question) (ex1 : List Nat) (u i : Nat)
    (hui : u < i) (hu1 : u ∉ ex1) (huno : noTag qs1 u)
    (hi : i < qs1.length) (hiex : i ∉ ex1) (hix : exactAt qs1 10 i)
    (qs2 : List Question) (ex2 : List Nat) (j2 : Nat)
    (hj2 : j2 < qs2.length) (hj2ex : j2 ∉ ex2) (hj2no : noTag qs2 j2)
    (hnoexact : ∀ k, k < qs2.length → k ∉ ex2 → ¬ exactAt qs2 10 k)
    (hearliest : ∀ k, k < j2 → k ∉ ex2 → ¬ noTag qs2 k) :
    (∃ j, find_question_by_difficulty qs1 10 (some ex1) = some j ∧
        exactAt qs1 10 j ∧ j ≠ u) ∧
      (find_question_by_difficulty qs2 10 (some ex2) = some j2 ∧
        distAt qs2 10 j2 = 0) := by
  constructor
  · rw [find_unfold]
    cases hfe : findExactAux 10 ex1 qs1 0 with
    | none =>
      exfalso
      have := (findExactAux_eq_none_iff 10 ex1 qs1 0).mp hfe i hi
      rcases this with hin | hne
      · exact hiex (by simpa using hin)
      · exact hne ((exactAt_get qs1 10 i hi).mp hix)
    | some jj =>
      obtain ⟨k, hk, hjk, hnex, hget, _hfirst⟩ := findExactAux_eq_some 10 ex1 qs1 0 jj hfe
      rw [Nat.zero_add] at hjk
      subst k
      refine ⟨jj, rfl, (exactAt_get qs1 10 jj hk).mpr hget, ?_⟩
      intro hju
      subst hju
      have := (noTag_get qs1 jj hk).mp huno
      rw [this] at hget
      cases hget
  · rw [find_unfold]
    cases hfe : findExactAux 10 ex2 qs2 0 with
    | some i2 =>
      exfalso
      obtain ⟨k, hk, hik, hnex, hget, _hfirst⟩ := findExactAux_eq_some 10 ex2 qs2 0 i2 hfe
      rw [Nat.zero_add] at hik
      subst k
      exact hnoexact i2 hk hnex ((exactAt_get qs2 10 i2 hk).mpr hget)
    | none =>
      cases hbf : bestFrom 10 ex2 qs2 0 with
      | none =>
        exfalso
        have := (bestFrom_eq_none_iff 10 ex2 qs2 0).mp hbf j2 hj2
        exact hj2ex (by simpa using this)
      | some p =>
        obtain ⟨j, d⟩ := p
        obtain ⟨k, hk, hjk, hnex, hd, hmin, hstrict⟩ := bestFrom_eq_some 10 ex2 qs2 0 j d hbf
        rw [Nat.zero_add] at hjk
        subst k
        have hj2dist : distQ 10 (qs2.get ⟨j2, hj2⟩) = 0 := by
          have := (noTag_get qs2 j2 hj2).mp hj2no
          unfold distQ
          rw [this]
          rfl
        have hd0 : d = 0 := by
          have := hmin j2 hj2 (by simpa using hj2ex)
          omega
        have hjj2 : j = j2 := by
          rcases lt_trichotomy j j2 with hlt | heq | hgt
          · exfalso
            cases hopt : (qs2.get ⟨j, hk⟩).difficulty with
            | none =>
              exact hearliest j hlt hnex ((noTag_get qs2 j hk).mpr hopt)
            | some v =>
              have hv : v = 10 := by
                have hdj : distQ 10 (qs2.get ⟨j, hk⟩) = 0 := by omega
                unfold distQ at hdj
                rw [hopt] at hdj
                simp only [Option.getD_some] at hdj
                omega
              subst hv
              exact hnoexact j hk hnex ((exactAt_get qs2 10 j hk).mpr hopt)
          · exact heq
          · exfalso
            have := hstrict j2 hj2 (by omega) (by simpa using hj2ex)
            omega
        subst hjj2
        have hdist : distAt qs2 10 j = 0 := by
          rw [distAt_get qs2 10 j hj2]
          exact hj2dist
        exact ⟨rfl, hdist⟩

/-- C10 witness: in the pool with an untagged question at index 0 and a
difficulty-10 question at index 1 the tagged question wins; in the pool
with difficulty 8 at index 0 and untagged questions at indices 1 and 2,
the earliest untagged index 1 wins with distance 0. -/
theorem find_question_missing_difficulty_witness :
    ((0 : Nat) < 1 ∧ (0 : Nat) ∉ ([] : List Nat) ∧
        noTag [Question.mk none, Question.mk (some 10)] 0 ∧
        1 < ([Question.mk none, Question.mk (some 10)] : List Question).length ∧
        (1 : Nat) ∉ ([] : List Nat) ∧
        exactAt [Question.mk none, Question.mk (some 10)] 10 1) ∧
      (1 < ([Question.mk (some 8), Question.mk none, Question.mk none] : List Question).length ∧
        (1 : Nat) ∉ ([] : List Nat) ∧
        noTag [Question.mk (some 8), Question.mk none, Question.mk none] 1 ∧
        (∀ k, k < ([Question.mk (some 8), Question.mk none, Question.mk none] : List Question).length →
          k ∉ ([] : List Nat) →
          ¬ exactAt [Question.mk (some 8), Question.mk none, Question.mk none] 10 k) ∧
        (∀ k, k < 1 → k ∉ ([] : List Nat) →
          ¬ noTag [Question.mk (some 8), Question.mk none, Question.mk none] k)) ∧
      ((∃ j, find_question_by_difficulty [Question.mk none, Question.mk (some 10)] 10
            (some []) = some j ∧
          exactAt [Question.mk none, Question.mk (some 10)] 10 j ∧ j ≠ 0) ∧
        (find_question_by_difficulty [Question.mk (some 8), Question.mk none, Question.mk none] 10
            (some []) = some 1 ∧
          distAt [Question.mk (some 8), Question.mk none, Question.mk none] 10 1 = 0)) :=
  ⟨⟨by decide, by decide, by decide, by decide, by decide, by decide⟩,
    ⟨by decide, by decide, by decide, by decide, by decide⟩,
    find_question_missing_difficulty
      [Question.mk none, Question.mk (some 10)] [] 0 1
      (by decide) (by decide) (by decide) (by decide) (by decide) (by decide)
      [Question.mk (some 8), Question.mk none, Question.mk none] [] 1
      (by decide) (by decide) (by decide) (by decide) (by decide)⟩
